import Mathlib

/-!
Verification of the Connect-Four move-selection engine
(`src/ConnectFour/ai_agent.py`, `src/ConnectFour/ai_agent_minimax_only.py`)
against its natural-language specification.

A board is embedded as a list of rows, each row a list of cells; cells hold
`0` (empty), `1` (the human player's piece) or `2` (the AI's piece), exactly
as in the Python source.  Python's `math.inf` / `-math.inf` sentinels used
for alpha/beta bounds are embedded as the three-constructor type `XInt`.
-/

namespace ConnectFour

abbrev Board := List (List Nat)

/-- `AI_PIECE = 2` (ai_agent.py line 7). -/
def AI_PIECE : Nat := 2

/-- `PLAYER_PIECE = 1` (ai_agent.py line 8). -/
def PLAYER_PIECE : Nat := 1

/-- `EMPTY = 0` (ai_agent.py line 9). -/
def EMPTY : Nat := 0

/-- `WINDOW_LENGTH = 4` (ai_agent.py line 10). -/
def WINDOW_LENGTH : Nat := 4

/-- `PURPLE = (128, 0, 128)` (ai_agent.py line 11). -/
def PURPLE : Nat × Nat × Nat := (128, 0, 128)

/-- Reading `board[r][c]`.  All source accesses are in range; the default `0`
is never consulted on the index ranges the source iterates over. -/
def cell (b : Board) (r c : Nat) : Nat := (b.getD r []).getD c EMPTY

/-- `len(board)` as used by the source. -/
def ROW_COUNT (b : Board) : Nat := b.length

/-- `len(board[0])` as used by the source. -/
def COLUMN_COUNT (b : Board) : Nat := (b.headD []).length

/-- ai_agent.py lines 13–14: `board[0][col] == EMPTY`. -/
def is_valid_location (b : Board) (col : Nat) : Bool := cell b 0 col == EMPTY

/-- ai_agent.py lines 16–18:
`[col for col in range(COLUMN_COUNT) if is_valid_location(board, col)]`. -/
def get_valid_locations (b : Board) : List Nat :=
  (List.range (COLUMN_COUNT b)).filter (fun col => is_valid_location b col)

/-- ai_agent.py lines 20–21: `board[row][col] = piece`.  The Python function
mutates its argument; the pure embedding returns the updated board (aliasing
behaviour is modelled separately by the heap embedding below). -/
def drop_piece (b : Board) (row col piece : Nat) : Board :=
  b.set row ((b.getD row []).set col piece)

/-- ai_agent.py lines 23–27: scan rows from `ROW_COUNT-1` down to `0`, return
the first row whose cell in `col` is `EMPTY`; falling off the loop returns
Python's implicit `None`, embedded as `none`. -/
def get_next_open_row (b : Board) (col : Nat) : Option Nat :=
  ((List.range (ROW_COUNT b)).reverse).find? (fun r => cell b r col == EMPTY)

/-- ai_agent.py lines 29–49: scan all horizontal, vertical and both diagonal
length-4 alignments of the whole grid for four cells equal to `piece`.  The
Python early `return True` statements are the boolean disjunction below. -/
def winning_move (b : Board) (piece : Nat) : Bool :=
  ((List.range (ROW_COUNT b)).any fun r =>
    (List.range (COLUMN_COUNT b - 3)).any fun c =>
      (List.range 4).all fun i => cell b r (c + i) == piece)
  || ((List.range (COLUMN_COUNT b)).any fun c =>
    (List.range (ROW_COUNT b - 3)).any fun r =>
      (List.range 4).all fun i => cell b (r + i) c == piece)
  || ((List.range (ROW_COUNT b - 3)).any fun r =>
    (List.range (COLUMN_COUNT b - 3)).any fun c =>
      (List.range 4).all fun i => cell b (r + i) (c + i) == piece)
  || ((List.range' 3 (ROW_COUNT b - 3)).any fun r =>
    (List.range (COLUMN_COUNT b - 3)).any fun c =>
      (List.range 4).all fun i => cell b (r - i) (c + i) == piece)

/-- ai_agent.py lines 51–69.  The two `if`-chains accumulate into `score`;
their net effect is the first chain's value minus the second chain's value. -/
def evaluate_window (window : List Nat) (piece : Nat) : Int :=
  let opp_piece := if piece == AI_PIECE then PLAYER_PIECE else AI_PIECE
  let s1 : Int :=
    if window.count piece == 4 then 1000
    else if window.count piece == 3 && window.count EMPTY == 1 then 50
    else if window.count piece == 2 && window.count EMPTY == 2 then 10
    else 0
  let s2 : Int :=
    if window.count opp_piece == 3 && window.count EMPTY == 1 then 80
    else if window.count opp_piece == 2 && window.count EMPTY == 2 then 20
    else 0
  s1 - s2

/-- ai_agent.py lines 71–107: center-column bonus plus `evaluate_window`
summed over all horizontal, vertical, and both diagonal length-4 windows. -/
def score_position (b : Board) (piece : Nat) : Int :=
  let RC := ROW_COUNT b
  let CC := COLUMN_COUNT b
  let center_count := (((List.range RC).map fun r => cell b r (CC / 2)).count piece : Int)
  center_count * 6
  + (((List.range RC).flatMap fun r => (List.range (CC - 3)).map fun c =>
      evaluate_window ((List.range WINDOW_LENGTH).map fun i => cell b r (c + i)) piece).sum)
  + (((List.range CC).flatMap fun c => (List.range (RC - 3)).map fun r =>
      evaluate_window ((List.range WINDOW_LENGTH).map fun i => cell b (r + i) c) piece).sum)
  + (((List.range (RC - 3)).flatMap fun r => (List.range (CC - 3)).map fun c =>
      evaluate_window ((List.range WINDOW_LENGTH).map fun i => cell b (r + i) (c + i)) piece).sum)
  + (((List.range' 3 (RC - 3)).flatMap fun r => (List.range (CC - 3)).map fun c =>
      evaluate_window ((List.range WINDOW_LENGTH).map fun i => cell b (r - i) (c + i)) piece).sum)

/-! ### Extended integers: Python's `-math.inf` / `math.inf` sentinels -/

inductive XInt : Type where
  | ninf : XInt
  | fin : Int → XInt
  | pinf : XInt
deriving DecidableEq

namespace XInt

/-- Strict comparison, matching Python `<` on `{-inf} ∪ ℤ ∪ {+inf}`. -/
def lt : XInt → XInt → Bool
  | _, ninf => false
  | ninf, _ => true
  | fin a, fin b => decide (a < b)
  | fin _, pinf => true
  | pinf, _ => false

/-- `a <= b` on extended integers. -/
def le (a b : XInt) : Bool := !(lt b a)

/-- Python `max(a, b)`: `b` exactly when `a < b`. -/
def max (a b : XInt) : XInt := if lt a b then b else a

/-- Python `min(a, b)`: `b` exactly when `b < a`. -/
def min (a b : XInt) : XInt := if lt b a then b else a

instance : LinearOrder XInt where
  le a b := XInt.le a b = true
  lt a b := XInt.lt a b = true
  le_refl a := by cases a <;> simp [XInt.le, XInt.lt]
  le_trans a b c := by
    cases a <;> cases b <;> cases c <;> simp [XInt.le, XInt.lt] <;> omega
  le_antisymm a b := by
    cases a <;> cases b <;> simp [XInt.le, XInt.lt] <;> omega
  le_total a b := by
    cases a <;> cases b <;> simp [XInt.le, XInt.lt] <;> omega
  lt_iff_le_not_le a b := by
    cases a <;> cases b <;> simp [XInt.le, XInt.lt] <;> omega
  decidableLE a b := inferInstanceAs (Decidable (XInt.le a b = true))
  max := XInt.max
  min := XInt.min
  max_def a b := by
    show XInt.max a b = if XInt.le a b = true then b else a
    cases a <;> cases b <;>
      simp [XInt.max, XInt.le, XInt.lt] <;>
      (try split_ifs) <;>
      first | rfl | (exfalso; omega) | (congr 1; omega)
  min_def a b := by
    show XInt.min a b = if XInt.le a b = true then a else b
    cases a <;> cases b <;>
      simp [XInt.min, XInt.le, XInt.lt] <;>
      (try split_ifs) <;>
      first | rfl | (exfalso; omega) | (congr 1; omega)

end XInt

/-! ### Move ordering

`valid_locations.sort(key=lambda x: abs(x - COLUMN_COUNT//2))` (ai_agent.py
line 131, ai_agent_minimax_only.py line 131).  Python's sort is stable; on the
ascending list produced by `get_valid_locations` it yields the center-outward
order with ties kept in ascending column order.  A stable insertion sort over
the same key reproduces it exactly. -/

/-- `abs(x - COLUMN_COUNT//2)`, computed over the integers as Python does. -/
def center_key (cc x : Nat) : Nat := ((x : Int) - ((cc / 2 : Nat) : Int)).natAbs

/-- Stable insertion of `x` into a list already sorted by `center_key cc`:
`x` goes after every element of equal or smaller key. -/
def insert_center (cc x : Nat) : List Nat → List Nat
  | [] => [x]
  | y :: ys => if center_key cc x < center_key cc y then x :: y :: ys
               else y :: insert_center cc x ys

/-- Stable sort by `center_key cc`, processing elements left to right. -/
def sort_by_center (cc : Nat) (l : List Nat) : List Nat :=
  l.foldl (fun acc x => insert_center cc x acc) []

/-! ### The alpha-beta search of ai_agent.py

`minimax(board, depth, alpha, beta, maximizing_player, piece)` (lines
109–166).  The `prune_count` counter and the `print` on pruning are
diagnostics that never influence the returned pair and are omitted.
`random.choice` seeds `best_col` before the loop, but the first iteration
always overwrites it (every recursive value exceeds `-math.inf` / is below
`math.inf`), so the seed is dead; it is embedded as `none`. -/

/-- The loop of the maximizing ply (ai_agent.py lines 133–149).  `recur` is
the recursive call at `depth - 1` with `maximizing_player = False`. -/
def ab_max_loop (recur : Board → XInt → XInt → XInt) (b : Board) (piece : Nat) :
    List Nat → XInt → Option Nat → XInt → XInt → Option Nat × XInt
  | [], value, best_col, _, _ => (best_col, value)
  | col :: rest, value, best_col, alpha, beta =>
    let row := (get_next_open_row b col).getD 0
    let temp_board := drop_piece b row col piece
    let new_score := recur temp_board alpha beta
    let vb := if XInt.lt value new_score then (new_score, some col) else (value, best_col)
    let alpha2 := XInt.max alpha vb.1
    if XInt.le beta alpha2 then (vb.2, vb.1)
    else ab_max_loop recur b piece rest vb.1 vb.2 alpha2 beta

/-- The loop of the minimizing ply (ai_agent.py lines 150–166).  Note that
the source drops `piece` — the maximizing piece — here as well (line 156). -/
def ab_min_loop (recur : Board → XInt → XInt → XInt) (b : Board) (piece : Nat) :
    List Nat → XInt → Option Nat → XInt → XInt → Option Nat × XInt
  | [], value, best_col, _, _ => (best_col, value)
  | col :: rest, value, best_col, alpha, beta =>
    let row := (get_next_open_row b col).getD 0
    let temp_board := drop_piece b row col piece
    let new_score := recur temp_board alpha beta
    let vb := if XInt.lt new_score value then (new_score, some col) else (value, best_col)
    let beta2 := XInt.min beta vb.1
    if XInt.le beta2 alpha then (vb.2, vb.1)
    else ab_min_loop recur b piece rest vb.1 vb.2 alpha beta2

/-- The common terminal branch (both files, lines 120–126): hard-coded to
`AI_PIECE` / `PLAYER_PIECE` irrespective of the `piece` argument. -/
def terminal_value (b : Board) : Option Nat × XInt :=
  if winning_move b AI_PIECE then (none, XInt.fin 100000000)
  else if winning_move b PLAYER_PIECE then (none, XInt.fin (-100000000))
  else (none, XInt.fin 0)

/-- `ai_agent.minimax`.  The guard `depth == 0 or is_terminal` of the source
is rendered by casing on `depth` and testing `is_terminal` in each branch. -/
def minimaxAB (b : Board) (depth : Nat) (alpha beta : XInt) (maximizing_player : Bool)
    (piece : Nat) : Option Nat × XInt :=
  let valid_locations := get_valid_locations b
  let is_terminal := valid_locations.isEmpty || winning_move b PLAYER_PIECE
      || winning_move b AI_PIECE
  match depth with
  | 0 =>
    if is_terminal then terminal_value b
    else (none, XInt.fin (score_position b piece))
  | d + 1 =>
    if is_terminal then terminal_value b
    else
      let sorted := sort_by_center (COLUMN_COUNT b) valid_locations
      if maximizing_player then
        ab_max_loop (fun b2 a2 β2 => (minimaxAB b2 d a2 β2 false piece).2)
          b piece sorted XInt.ninf none alpha beta
      else
        ab_min_loop (fun b2 a2 β2 => (minimaxAB b2 d a2 β2 true piece).2)
          b piece sorted XInt.pinf none alpha beta

/-! ### The unpruned search of ai_agent_minimax_only.py

`minimax(board, depth, maximizing_player, piece)` (lines 110–158): same
terminal handling and move ordering, no alpha/beta, no break, and — unlike
ai_agent.py — the minimizing ply drops the opponent's piece (line 153). -/

/-- Maximizing-ply loop of ai_agent_minimax_only.py (lines 133–146). -/
def mm_max_loop (recur : Board → XInt) (b : Board) (piece : Nat) :
    List Nat → XInt → Option Nat → Option Nat × XInt
  | [], value, best_col => (best_col, value)
  | col :: rest, value, best_col =>
    let row := (get_next_open_row b col).getD 0
    let temp_board := drop_piece b row col piece
    let new_score := recur temp_board
    if XInt.lt value new_score then mm_max_loop recur b piece rest new_score (some col)
    else mm_max_loop recur b piece rest value best_col

/-- Minimizing-ply loop of ai_agent_minimax_only.py (lines 147–158); drops
`PLAYER_PIECE if piece == AI_PIECE else AI_PIECE`. -/
def mm_min_loop (recur : Board → XInt) (b : Board) (piece : Nat) :
    List Nat → XInt → Option Nat → Option Nat × XInt
  | [], value, best_col => (best_col, value)
  | col :: rest, value, best_col =>
    let row := (get_next_open_row b col).getD 0
    let opp := if piece == AI_PIECE then PLAYER_PIECE else AI_PIECE
    let temp_board := drop_piece b row col opp
    let new_score := recur temp_board
    if XInt.lt new_score value then mm_min_loop recur b piece rest new_score (some col)
    else mm_min_loop recur b piece rest value best_col

/-- `ai_agent_minimax_only.minimax`. -/
def minimaxOnly (b : Board) (depth : Nat) (maximizing_player : Bool) (piece : Nat) :
    Option Nat × XInt :=
  let valid_locations := get_valid_locations b
  let is_terminal := valid_locations.isEmpty || winning_move b PLAYER_PIECE
      || winning_move b AI_PIECE
  match depth with
  | 0 =>
    if is_terminal then terminal_value b
    else (none, XInt.fin (score_position b piece))
  | d + 1 =>
    if is_terminal then terminal_value b
    else
      let sorted := sort_by_center (COLUMN_COUNT b) valid_locations
      if maximizing_player then
        mm_max_loop (fun b2 => (minimaxOnly b2 d false piece).2) b piece sorted
          XInt.ninf none
      else
        mm_min_loop (fun b2 => (minimaxOnly b2 d true piece).2) b piece sorted
          XInt.pinf none

/-! ### Move selector -/

/-- Body of the two fast-win loops of `get_best_move` (ai_agent.py lines
172–177 and 181–186): simulate dropping `p` in `col` on a clone and test for
an immediate four-in-a-row of `p`. -/
def wins_after_drop (b : Board) (p col : Nat) : Bool :=
  winning_move (drop_piece b ((get_next_open_row b col).getD 0) col p) p

/-- `ai_agent.get_best_move(board, depth=5, piece=AI_PIECE)` (lines 168–190).
The early-returning `for` loops are `List.find?` over the same columns. -/
def get_best_move (b : Board) (depth : Nat := 5) (piece : Nat := AI_PIECE) :
    Option Nat × (Nat × Nat × Nat) :=
  let valid_locations := get_valid_locations b
  match valid_locations.find? (fun col => wins_after_drop b piece col) with
  | some col => (some col, PURPLE)
  | none =>
    let opp_piece := if piece == AI_PIECE then PLAYER_PIECE else AI_PIECE
    match valid_locations.find? (fun col => wins_after_drop b opp_piece col) with
    | some col => (some col, PURPLE)
    | none => ((minimaxAB b depth XInt.ninf XInt.pinf true piece).1, PURPLE)

/-! ### Specification-side definitions

`full_minimax_value` follows the spec's words for an *unpruned full minimax
search over the same game tree* that `minimaxAB` searches: identical terminal
handling, identical move ordering, and — as in ai_agent.py — both plies drop
the maximizing `piece`.  It is the comparison point for the
pruning-equivalence claim. -/

def full_minimax_value (b : Board) (depth : Nat) (maximizing_player : Bool)
    (piece : Nat) : XInt :=
  let valid_locations := get_valid_locations b
  let is_terminal := valid_locations.isEmpty || winning_move b PLAYER_PIECE
      || winning_move b AI_PIECE
  match depth with
  | 0 =>
    if is_terminal then (terminal_value b).2
    else XInt.fin (score_position b piece)
  | d + 1 =>
    if is_terminal then (terminal_value b).2
    else
      let sorted := sort_by_center (COLUMN_COUNT b) valid_locations
      let child := fun (col : Nat) =>
        full_minimax_value (drop_piece b ((get_next_open_row b col).getD 0) col piece)
          d (!maximizing_player) piece
      if maximizing_player then (sorted.map child).foldl XInt.max XInt.ninf
      else (sorted.map child).foldl XInt.min XInt.pinf

/-- The per-window contribution as the specification words it: one mutually
exclusive case chain over the literal counts of the piece, the opponent's
piece, and `EMPTY` in the window. -/
def claim_window_score (window : List Nat) (piece : Nat) : Int :=
  let opp := if piece == AI_PIECE then PLAYER_PIECE else AI_PIECE
  if window.count piece == 4 then 1000
  else if window.count piece == 3 && window.count EMPTY == 1 then 50
  else if window.count piece == 2 && window.count EMPTY == 2 then 10
  else if window.count opp == 3 && window.count EMPTY == 1 then -80
  else if window.count opp == 2 && window.count EMPTY == 2 then -20
  else 0

/-- The specification's evaluator formula: `6 ×` center-column count plus
`claim_window_score` summed over the same four window families. -/
def claim_score (b : Board) (piece : Nat) : Int :=
  let RC := ROW_COUNT b
  let CC := COLUMN_COUNT b
  let center_count := (((List.range RC).map fun r => cell b r (CC / 2)).count piece : Int)
  center_count * 6
  + (((List.range RC).flatMap fun r => (List.range (CC - 3)).map fun c =>
      claim_window_score ((List.range WINDOW_LENGTH).map fun i => cell b r (c + i)) piece).sum)
  + (((List.range CC).flatMap fun c => (List.range (RC - 3)).map fun r =>
      claim_window_score ((List.range WINDOW_LENGTH).map fun i => cell b (r + i) c) piece).sum)
  + (((List.range (RC - 3)).flatMap fun r => (List.range (CC - 3)).map fun c =>
      claim_window_score ((List.range WINDOW_LENGTH).map fun i => cell b (r + i) (c + i)) piece).sum)
  + (((List.range' 3 (RC - 3)).flatMap fun r => (List.range (CC - 3)).map fun c =>
      claim_window_score ((List.range WINDOW_LENGTH).map fun i => cell b (r - i) (c + i)) piece).sum)

/-! ### Heap model of Python list aliasing

Python boards are lists of row lists; `temp_board = [row[:] for row in board]`
copies every row into fresh list objects, and `drop_piece` mutates a row in
place.  To state the frame property (the caller's board is never mutated) the
row store is made explicit: a `Heap` of row contents, and a board handle
`BoardRef` holding the heap indices of its rows.  Cloning appends fresh rows
to the heap; `drop_pieceH` writes through the referenced row, exactly as the
Python assignment `board[row][col] = piece` does. -/

abbrev Heap := List (List Nat)

abbrev BoardRef := List Nat

/-- Dereference one row object. -/
def read_row (h : Heap) (ref : Nat) : List Nat := h.getD ref []

/-- The board value a Python caller observes through its handle. -/
def board_of (h : Heap) (br : BoardRef) : Board := br.map (read_row h)

/-- Reading `board[r][c]` through the heap. -/
def read_cell (h : Heap) (br : BoardRef) (r c : Nat) : Nat := cell (board_of h br) r c

/-- `temp_board = [row[:] for row in board]`: allocate fresh rows with copied
contents; the new handle references the appended rows. -/
def clone_board (h : Heap) (br : BoardRef) : Heap × BoardRef :=
  (h ++ br.map (read_row h), List.range' h.length br.length)

/-- `board[row][col] = piece` through the heap: mutate the row object that
`board[row]` references. -/
def drop_pieceH (h : Heap) (br : BoardRef) (row col piece : Nat) : Heap :=
  let ref := br.getD row 0
  h.set ref ((read_row h ref).set col piece)

/-- Maximizing-ply loop of ai_agent.py in the heap model, threading the heap
through clone, in-place drop and recursion. -/
def ab_max_loopH (recur : Heap → BoardRef → XInt → XInt → Heap × XInt)
    (br : BoardRef) (piece : Nat) :
    List Nat → Heap → XInt → Option Nat → XInt → XInt → Heap × (Option Nat × XInt)
  | [], hp, value, best_col, _, _ => (hp, (best_col, value))
  | col :: rest, hp, value, best_col, alpha, beta =>
    let row := (get_next_open_row (board_of hp br) col).getD 0
    let cl := clone_board hp br
    let hp2 := drop_pieceH cl.1 cl.2 row col piece
    let res := recur hp2 cl.2 alpha beta
    let vb := if XInt.lt value res.2 then (res.2, some col) else (value, best_col)
    let alpha2 := XInt.max alpha vb.1
    if XInt.le beta alpha2 then (res.1, (vb.2, vb.1))
    else ab_max_loopH recur br piece rest res.1 vb.1 vb.2 alpha2 beta

/-- Minimizing-ply loop of ai_agent.py in the heap model (drops `piece`, as
the source does on line 156). -/
def ab_min_loopH (recur : Heap → BoardRef → XInt → XInt → Heap × XInt)
    (br : BoardRef) (piece : Nat) :
    List Nat → Heap → XInt → Option Nat → XInt → XInt → Heap × (Option Nat × XInt)
  | [], hp, value, best_col, _, _ => (hp, (best_col, value))
  | col :: rest, hp, value, best_col, alpha, beta =>
    let row := (get_next_open_row (board_of hp br) col).getD 0
    let cl := clone_board hp br
    let hp2 := drop_pieceH cl.1 cl.2 row col piece
    let res := recur hp2 cl.2 alpha beta
    let vb := if XInt.lt res.2 value then (res.2, some col) else (value, best_col)
    let beta2 := XInt.min beta vb.1
    if XInt.le beta2 alpha then (res.1, (vb.2, vb.1))
    else ab_min_loopH recur br piece rest res.1 vb.1 vb.2 alpha beta2

/-- `ai_agent.minimax` in the heap model.  The returned heap carries every
mutation the call performed. -/
def minimaxH (h : Heap) (br : BoardRef) (depth : Nat) (alpha beta : XInt)
    (maximizing_player : Bool) (piece : Nat) : Heap × (Option Nat × XInt) :=
  let b := board_of h br
  let valid_locations := get_valid_locations b
  let is_terminal := valid_locations.isEmpty || winning_move b PLAYER_PIECE
      || winning_move b AI_PIECE
  match depth with
  | 0 =>
    (h, if is_terminal then terminal_value b else (none, XInt.fin (score_position b piece)))
  | d + 1 =>
    if is_terminal then (h, terminal_value b)
    else
      let sorted := sort_by_center (COLUMN_COUNT b) valid_locations
      if maximizing_player then
        ab_max_loopH (fun h2 br2 a2 β2 =>
            let r := minimaxH h2 br2 d a2 β2 false piece
            (r.1, r.2.2))
          br piece sorted h XInt.ninf none alpha beta
      else
        ab_min_loopH (fun h2 br2 a2 β2 =>
            let r := minimaxH h2 br2 d a2 β2 true piece
            (r.1, r.2.2))
          br piece sorted h XInt.pinf none alpha beta

/-- One fast-win loop of `get_best_move` in the heap model. -/
def win_check_loopH (br : BoardRef) (p : Nat) : List Nat → Heap → Heap × Option Nat
  | [], hp => (hp, none)
  | col :: rest, hp =>
    let row := (get_next_open_row (board_of hp br) col).getD 0
    let cl := clone_board hp br
    let hp2 := drop_pieceH cl.1 cl.2 row col p
    if winning_move (board_of hp2 cl.2) p then (hp2, some col)
    else win_check_loopH br p rest hp2

/-- `ai_agent.get_best_move` in the heap model. -/
def get_best_moveH (h : Heap) (br : BoardRef) (depth : Nat) (piece : Nat) :
    Heap × (Option Nat × (Nat × Nat × Nat)) :=
  let valid_locations := get_valid_locations (board_of h br)
  let w1 := win_check_loopH br piece valid_locations h
  match w1.2 with
  | some col => (w1.1, (some col, PURPLE))
  | none =>
    let opp_piece := if piece == AI_PIECE then PLAYER_PIECE else AI_PIECE
    let w2 := win_check_loopH br opp_piece valid_locations w1.1
    match w2.2 with
    | some col => (w2.1, (some col, PURPLE))
    | none =>
      let r := minimaxH w2.1 br depth XInt.ninf XInt.pinf true piece
      (r.1, (r.2.1, PURPLE))

/-- `h2` extends `h`: the heap only ever grows at the end, so every existing
row object keeps its contents. -/
def heap_extends (h h2 : Heap) : Prop := ∃ t, h2 = h ++ t

/-! ### Concrete boards used by counterexamples and witnesses -/

/-- 4×4 board whose bottom row is four `PLAYER_PIECE`s: piece `1` has
already won. -/
def cexBoard1 : Board := [[0,0,0,0],[0,0,0,0],[0,0,0,0],[1,1,1,1]]

/-- 4×5 board with three stacked `1`s in columns 0 and 4: the true opponent
wins at once wherever the maximizer moves, so an alternating depth-2 search
values it `-100000000`. -/
def cexBoard2 : Board := [[0,0,0,0,0],[1,0,0,0,1],[1,0,0,0,1],[1,0,0,0,1]]

/-- 4×6 variant of `cexBoard2` (three stacked `1`s in columns 0 and 5). -/
def cexBoard3 : Board := [[0,0,0,0,0,0],[1,0,0,0,0,1],[1,0,0,0,0,1],[1,0,0,0,0,1]]

/-- 4×4 board with three stacked `2`s in column 0: dropping piece `2` there
wins immediately. -/
def winBoard : Board := [[0,0,0,0],[2,0,0,0],[2,0,0,0],[2,1,1,0]]

/-- 2×2 board whose top row is fully occupied: no legal columns. -/
def fullBoard : Board := [[1,2],[2,1]]

/-- Knuth–Moore three-way relation between a fail-soft alpha-beta result `g`
and the exact minimax value `f` of the same node for the search window
`(alpha, beta)`: a fail-low result bounds `f` from above, an in-window result
is exact, and a fail-high result bounds `f` from below. -/
def ABRel (g f alpha beta : XInt) : Prop :=
  (g ≤ alpha → f ≤ g) ∧ (alpha < g → g < beta → g = f) ∧ (beta ≤ g → g ≤ f)

/-!
## Theorems
-/

/-! ### Basic facts about `XInt` -/

theorem XInt.lt_iff {a b : XInt} : XInt.lt a b = true ↔ a < b := Iff.rfl

theorem XInt.le_iff {a b : XInt} : XInt.le a b = true ↔ a ≤ b := Iff.rfl

theorem XInt.max_eq (a b : XInt) : XInt.max a b = Max.max a b := rfl

theorem XInt.min_eq (a b : XInt) : XInt.min a b = Min.min a b := rfl

theorem XInt.ninf_le (a : XInt) : XInt.ninf ≤ a := by
  cases a <;> exact XInt.le_iff.mp rfl

theorem XInt.le_pinf (a : XInt) : a ≤ XInt.pinf := by
  cases a <;> exact XInt.le_iff.mp rfl

theorem XInt.ninf_lt_pinf : (XInt.ninf : XInt) < XInt.pinf := XInt.lt_iff.mp rfl

/-- Rebase a `foldl max` at an arbitrary seed onto the seed-free fold. -/
theorem foldl_max_eq (l : List XInt) (a : XInt) :
    l.foldl XInt.max a = Max.max a (l.foldl XInt.max XInt.ninf) := by
  induction l generalizing a with
  | nil =>
    simp only [List.foldl_nil]
    exact (max_eq_left (XInt.ninf_le a)).symm
  | cons x t ih =>
    simp only [List.foldl_cons]
    rw [ih (XInt.max a x), ih (XInt.max XInt.ninf x)]
    show Max.max (Max.max a x) _ = Max.max a (Max.max (Max.max XInt.ninf x) _)
    rw [max_eq_right (XInt.ninf_le x), max_assoc]

/-- The seed never exceeds the fold. -/
theorem le_foldl_max (l : List XInt) (a : XInt) : a ≤ l.foldl XInt.max a := by
  rw [foldl_max_eq]; exact le_max_left a _

/-- Rebase a `foldl min` at an arbitrary seed onto the seed-free fold. -/
theorem foldl_min_eq (l : List XInt) (a : XInt) :
    l.foldl XInt.min a = Min.min a (l.foldl XInt.min XInt.pinf) := by
  induction l generalizing a with
  | nil =>
    simp only [List.foldl_nil]
    exact (min_eq_left (XInt.le_pinf a)).symm
  | cons x t ih =>
    simp only [List.foldl_cons]
    rw [ih (XInt.min a x), ih (XInt.min XInt.pinf x)]
    show Min.min (Min.min a x) _ = Min.min a (Min.min (Min.min XInt.pinf x) _)
    rw [min_eq_right (XInt.le_pinf x), min_assoc]

/-- The fold never exceeds the seed. -/
theorem foldl_min_le (l : List XInt) (a : XInt) : l.foldl XInt.min a ≤ a := by
  rw [foldl_min_eq]; exact min_le_left a _

/-! ### Claim C1: terminal scoring -/

/-- C1, counterexample: on a board where `PLAYER_PIECE` already has
four-in-a-row, `minimax` asked to maximize for `PLAYER_PIECE` returns
`-100000000`, not the `+100000000` the claim requires for a win of the
designated maximizing piece — the terminal score is not relative to the
`piece` argument. -/
theorem c1_terminal_score_not_piece_relative_cex :
    winning_move cexBoard1 PLAYER_PIECE = true ∧
    (minimaxAB cexBoard1 1 XInt.ninf XInt.pinf true PLAYER_PIECE).2
      = XInt.fin (-100000000) ∧
    (minimaxOnly cexBoard1 1 true PLAYER_PIECE).2 = XInt.fin (-100000000) ∧
    XInt.fin (-100000000) ≠ XInt.fin 100000000 := by decide

/-- C1, amended: at a terminal node (no legal moves, or either piece has
four-in-a-row) both minimax variants return column `none` and a value fixed
to the AI side — `+100000000` if `AI_PIECE` has four-in-a-row, else
`-100000000` if `PLAYER_PIECE` has, else `0` — irrespective of `depth`,
`alpha`, `beta`, the ply flag and the `piece` argument. -/
theorem c1_terminal_score_fixed_to_ai (b : Board) (depth : Nat) (alpha beta : XInt)
    (maxi : Bool) (piece : Nat)
    (h : get_valid_locations b = [] ∨ winning_move b PLAYER_PIECE = true ∨
      winning_move b AI_PIECE = true) :
    minimaxAB b depth alpha beta maxi piece
      = (none, XInt.fin (if winning_move b AI_PIECE = true then 100000000
          else if winning_move b PLAYER_PIECE = true then -100000000 else 0)) ∧
    minimaxOnly b depth maxi piece
      = (none, XInt.fin (if winning_move b AI_PIECE = true then 100000000
          else if winning_move b PLAYER_PIECE = true then -100000000 else 0)) := by
  have hterm : ((get_valid_locations b).isEmpty || winning_move b PLAYER_PIECE
      || winning_move b AI_PIECE) = true := by
    rcases h with h | h | h <;> simp [h, List.isEmpty_iff]
  have htv : terminal_value b
      = (none, XInt.fin (if winning_move b AI_PIECE = true then 100000000
          else if winning_move b PLAYER_PIECE = true then -100000000 else 0)) := by
    unfold terminal_value
    split_ifs <;> simp_all
  cases depth <;>
    constructor <;>
    simp only [minimaxAB, minimaxOnly, hterm, if_true, ite_true] <;>
    exact htv

/-- C1, witness for the amended theorem at a concrete terminal board. -/
theorem c1_terminal_score_fixed_to_ai_witness :
    minimaxAB cexBoard1 3 XInt.ninf XInt.pinf true AI_PIECE
      = (none, XInt.fin (-100000000)) :=
  ((c1_terminal_score_fixed_to_ai cexBoard1 3 XInt.ninf XInt.pinf true AI_PIECE
      (Or.inr (Or.inl (by decide)))).1).trans (by decide)

/-! ### Claims C6 and C10: `get_next_open_row` and column-full handling -/

/-- `find?` over a reversed initial range finds the largest index below `n`
satisfying the predicate. -/
theorem find_rev_range_eq_some {n r : Nat} {p : Nat → Bool} :
    (List.range n).reverse.find? p = some r ↔
      (r < n ∧ p r = true ∧ ∀ j, r < j → j < n → p j = false) := by
  induction n with
  | zero => simp
  | succ n ih =>
    rw [List.range_succ, List.reverse_append]
    simp only [List.reverse_singleton, List.singleton_append, List.find?_cons]
    cases hpn : p n with
    | true =>
      simp only [Option.some_inj]
      constructor
      · rintro rfl
        exact ⟨Nat.lt_succ_self n, hpn, fun j hj1 hj2 => absurd hj2 (by omega)⟩
      · rintro ⟨h1, h2, h3⟩
        by_contra hne
        have hrn : r < n := by omega
        have := h3 n hrn (Nat.lt_succ_self n)
        rw [hpn] at this
        exact absurd this (by simp)
    | false =>
      rw [ih]
      constructor
      · rintro ⟨h1, h2, h3⟩
        refine ⟨by omega, h2, fun j hj1 hj2 => ?_⟩
        rcases Nat.lt_succ_iff_lt_or_eq.mp hj2 with h | h
        · exact h3 j hj1 h
        · rwa [h]
      · rintro ⟨h1, h2, h3⟩
        have hrn : r ≠ n := fun he => by rw [he, hpn] at h2; exact absurd h2 (by simp)
        exact ⟨by omega, h2, fun j hj1 hj2 => h3 j hj1 (by omega)⟩

/-- C6, counterexample: on a column with no open cell, `get_next_open_row`
returns the sentinel `none` (Python's implicit `None`) rather than signaling
a `ColumnFullError`, and `drop_piece` itself performs no legality check — it
silently overwrites an occupied cell. -/
theorem c6_full_column_returns_sentinel_cex :
    get_next_open_row [[1],[1]] 0 = none ∧
    drop_piece [[1],[1]] 0 0 2 = [[2],[1]] := by decide

/-- C6, amended: `get_next_open_row` returns `some r` exactly when `r` is
the lowest open cell of the column (the largest row index holding `EMPTY`),
and returns the sentinel `none` — not a signaled failure — exactly when the
column has no open cell. -/
theorem c6_get_next_open_row_characterization (b : Board) (col : Nat) :
    (∀ r, get_next_open_row b col = some r ↔
      (r < ROW_COUNT b ∧ cell b r col = EMPTY ∧
        ∀ j, r < j → j < ROW_COUNT b → cell b j col ≠ EMPTY)) ∧
    (get_next_open_row b col = none ↔
      ∀ r, r < ROW_COUNT b → cell b r col ≠ EMPTY) := by
  constructor
  · intro r
    unfold get_next_open_row
    rw [find_rev_range_eq_some]
    simp only [beq_iff_eq, beq_eq_false_iff_ne]
  · unfold get_next_open_row
    rw [List.find?_eq_none]
    simp only [List.mem_reverse, List.mem_range, beq_iff_eq]

/-- C10, counterexample: on a board violating the gravity invariant, a
column whose topmost cell is occupied is not full, and `get_next_open_row`
returns the open row below, not `None`. -/
theorem c10_top_occupied_but_not_full_cex :
    cell [[1],[0]] 0 0 ≠ EMPTY ∧ get_next_open_row [[1],[0]] 0 = some 1 := by decide

/-- C10, amended: on a gravity-consistent column (every occupied cell has
only occupied cells below it), an occupied topmost cell means the column is
full, and `get_next_open_row` then returns `None` — a plain value, not an
exception. -/
theorem c10_get_next_open_row_none_of_full_column (b : Board) (col : Nat)
    (hgrav : ∀ r j, r < j → j < ROW_COUNT b → cell b r col ≠ EMPTY →
      cell b j col ≠ EMPTY)
    (htop : cell b 0 col ≠ EMPTY) :
    get_next_open_row b col = none := by
  apply (c6_get_next_open_row_characterization b col).2.mpr
  intro r hr
  rcases Nat.eq_zero_or_pos r with h | h
  · rwa [h]
  · exact hgrav 0 r h hr htop

/-- C10, witness: the amended theorem applied to a full gravity-consistent
column. -/
theorem c10_get_next_open_row_none_of_full_column_witness :
    get_next_open_row [[2],[1]] 0 = none :=
  c10_get_next_open_row_none_of_full_column [[2],[1]] 0
    (fun r j h1 h2 _ => by
      have hj : j = 1 := by
        have : ROW_COUNT [[2],[1]] = 2 := rfl
        omega
      subst hj; decide)
    (by decide)

/-! ### Claim C7: selection on a board with no legal columns -/

/-- C7, counterexample: on a board with zero legal columns, `get_best_move`
silently returns the sentinel column `None` (paired with the constant color)
instead of surfacing a `NoLegalMovesError`-style failure. -/
theorem c7_no_legal_moves_returns_sentinel_cex :
    get_valid_locations fullBoard = [] ∧
    get_best_move fullBoard 5 AI_PIECE = (none, PURPLE) := by decide

/-- C7, amended: whenever the board has zero legal columns, `get_best_move`
returns `(None, PURPLE)` — the fast-win loops scan nothing and `minimax`
immediately hits its terminal branch, whose column is `None`; no failure is
signaled. -/
theorem c7_get_best_move_no_legal_moves_sentinel (b : Board) (depth piece : Nat)
    (h : get_valid_locations b = []) :
    get_best_move b depth piece = (none, PURPLE) := by
  have hterm : ((get_valid_locations b).isEmpty || winning_move b PLAYER_PIECE
      || winning_move b AI_PIECE) = true := by simp [h, List.isEmpty_iff]
  have hmm : (minimaxAB b depth XInt.ninf XInt.pinf true piece).1 = none := by
    cases depth <;>
      simp only [minimaxAB, hterm, if_true, ite_true] <;>
      · unfold terminal_value
        split_ifs <;> rfl
  unfold get_best_move
  rw [h]
  simp only [List.find?_nil]
  rw [hmm]

/-- C7, witness: the amended theorem applied to a concrete full board. -/
theorem c7_get_best_move_no_legal_moves_sentinel_witness :
    get_best_move fullBoard 7 PLAYER_PIECE = (none, PURPLE) :=
  c7_get_best_move_no_legal_moves_sentinel fullBoard 7 PLAYER_PIECE (by decide)

/-! ### Claim C4: immediate wins take priority over search -/

/-- C4: whenever some legal column makes `piece` win at once, `get_best_move`
returns such a column, and the result is the same for every search depth —
the fast-win loop answers before the minimax search is consulted. -/
theorem c4_get_best_move_immediate_win (b : Board) (depth piece : Nat)
    (h : ∃ col ∈ get_valid_locations b, wins_after_drop b piece col = true) :
    ∃ col, (get_best_move b depth piece).1 = some col ∧
      col ∈ get_valid_locations b ∧ wins_after_drop b piece col = true ∧
      ∀ d2, (get_best_move b d2 piece).1 = some col := by
  obtain ⟨c0, hc0, hw0⟩ := h
  have hsome : ((get_valid_locations b).find?
      (fun col => wins_after_drop b piece col)).isSome := by
    rw [List.find?_isSome]
    exact ⟨c0, hc0, hw0⟩
  obtain ⟨col, hfind⟩ := Option.isSome_iff_exists.mp hsome
  have hresult : ∀ d2, (get_best_move b d2 piece).1 = some col := by
    intro d2
    simp only [get_best_move]
    rw [hfind]
  exact ⟨col, hresult depth, List.mem_of_find?_eq_some hfind,
    List.find?_some hfind, hresult⟩

/-- C4, witness: on `winBoard`, piece `2` wins at once in column 0 and
`get_best_move` returns it at every depth. -/
theorem c4_get_best_move_immediate_win_witness :
    ∃ col, (get_best_move winBoard 5 2).1 = some col ∧
      col ∈ get_valid_locations winBoard ∧ wins_after_drop winBoard 2 col = true ∧
      ∀ d2, (get_best_move winBoard d2 2).1 = some col :=
  c4_get_best_move_immediate_win winBoard 5 2 ⟨0, by decide, by decide⟩

/-! ### Claim C2: the piece placed at the minimizing ply -/

/-- C2: on `cexBoard2` the true opponent (`PLAYER_PIECE`) completes
four-in-a-row immediately in column 0 or 4 whatever the maximizer plays, so
a depth-2 search that lets the opponent answer values the position
`-100000000` — as `ai_agent_minimax_only.minimax` does.  `ai_agent.minimax`
instead returns a heuristic `-80`, because its minimizing ply drops `piece`
(the maximizing piece, line 156) rather than the opponent's piece and never
sees the replies. -/
theorem c2_min_ply_drops_maximizing_piece_bug :
    (minimaxOnly cexBoard2 2 true AI_PIECE).2 = XInt.fin (-100000000) ∧
    (minimaxAB cexBoard2 2 XInt.ninf XInt.pinf true AI_PIECE).2 = XInt.fin (-80) := by
  decide

/-! ### Claim C3: pruning and the returned value -/

/-- C3, counterexample: with the same board, depth and deterministic
tie-break, the value of the pruning search differs from the value of the
unpruned search of ai_agent_minimax_only.py (their minimizing plies drop
different pieces, so they explore different trees). -/
theorem c3_pruned_vs_unpruned_file_values_differ_cex :
    (minimaxAB cexBoard3 2 XInt.ninf XInt.pinf true AI_PIECE).2 ≠
    (minimaxOnly cexBoard3 2 true AI_PIECE).2 := by decide

/-! ### Claim C8: `winning_move` detects exactly the four-in-a-rows -/

/-- C8: `winning_move(board, piece)` is true iff four contiguous cells all
holding `piece` exist along a horizontal, vertical, or either diagonal
direction anywhere on the grid; the whole board is scanned in all four
orientations, with no assumption about where the last piece landed. -/
theorem c8_winning_move_iff_four_in_a_row (b : Board) (piece : Nat) :
    winning_move b piece = true ↔
      ((∃ r c, r < ROW_COUNT b ∧ c + 3 < COLUMN_COUNT b ∧
          ∀ i, i < 4 → cell b r (c + i) = piece) ∨
       (∃ r c, r + 3 < ROW_COUNT b ∧ c < COLUMN_COUNT b ∧
          ∀ i, i < 4 → cell b (r + i) c = piece) ∨
       (∃ r c, r + 3 < ROW_COUNT b ∧ c + 3 < COLUMN_COUNT b ∧
          ∀ i, i < 4 → cell b (r + i) (c + i) = piece) ∨
       (∃ r c, 3 ≤ r ∧ r < ROW_COUNT b ∧ c + 3 < COLUMN_COUNT b ∧
          ∀ i, i < 4 → cell b (r - i) (c + i) = piece)) := by
  unfold winning_move
  simp only [Bool.or_eq_true, List.any_eq_true, List.all_eq_true, List.mem_range,
    List.mem_range'_1, beq_iff_eq]
  constructor
  · rintro (((⟨r, hr, c, hc, ha⟩ | ⟨c, hc, r, hr, ha⟩) | ⟨r, hr, c, hc, ha⟩) |
      ⟨r, hr, c, hc, ha⟩)
    · exact Or.inl ⟨r, c, hr, by omega, fun i hi => ha i hi⟩
    · exact Or.inr (Or.inl ⟨r, c, by omega, hc, fun i hi => ha i hi⟩)
    · exact Or.inr (Or.inr (Or.inl ⟨r, c, by omega, by omega, fun i hi => ha i hi⟩))
    · exact Or.inr (Or.inr (Or.inr ⟨r, c, hr.1, by omega, by omega,
        fun i hi => ha i hi⟩))
  · rintro (⟨r, c, hr, hc, ha⟩ | ⟨r, c, hr, hc, ha⟩ | ⟨r, c, hr, hc, ha⟩ |
      ⟨r, c, hr3, hr, hc, ha⟩)
    · exact Or.inl (Or.inl (Or.inl ⟨r, hr, c, by omega, fun i hi => ha i hi⟩))
    · exact Or.inl (Or.inl (Or.inr ⟨c, hc, r, by omega, fun i hi => ha i hi⟩))
    · exact Or.inl (Or.inr ⟨r, by omega, c, by omega, fun i hi => ha i hi⟩)
    · exact Or.inr ⟨r, ⟨hr3, by omega⟩, c, by omega, fun i hi => ha i hi⟩

/-! ### Claim C9: the evaluator computes the claimed formula -/

/-- Counts of three pairwise distinct values never exceed the length. -/
theorem count_three_le (l : List Nat) (a b c : Nat) (hab : a ≠ b) (hac : a ≠ c)
    (hbc : b ≠ c) : l.count a + l.count b + l.count c ≤ l.length := by
  induction l with
  | nil => simp
  | cons x t ih =>
    simp only [List.length_cons]
    rw [List.count_cons, List.count_cons, List.count_cons]
    simp only [beq_iff_eq]
    split_ifs <;> omega

/-- On a length-4 window with a genuine piece (`1` or `2`), the source's two
accumulating chains equal the claim's single mutually exclusive chain: a
window cannot satisfy a piece case and an opponent case at the same time. -/
theorem evaluate_window_eq_claim (w : List Nat) (piece : Nat) (hlen : w.length = 4)
    (hp : piece = PLAYER_PIECE ∨ piece = AI_PIECE) :
    evaluate_window w piece = claim_window_score w piece := by
  have h120 := count_three_le w 1 2 0 (by decide) (by decide) (by decide)
  rw [hlen] at h120
  rcases hp with h | h <;> subst h <;>
    · unfold evaluate_window claim_window_score PLAYER_PIECE AI_PIECE EMPTY
      simp only [beq_iff_eq, Bool.and_eq_true, decide_eq_true_eq, Nat.reduceEqDiff]
      split_ifs <;> first | omega | contradiction

/-- Congruence for sums over `flatMap`. -/
theorem sum_flatMap_congr {l : List Nat} {f g : Nat → List Int}
    (h : ∀ x ∈ l, f x = g x) : (l.flatMap f).sum = (l.flatMap g).sum := by
  induction l with
  | nil => rfl
  | cons a t ih =>
    simp only [List.flatMap_cons, List.sum_append]
    rw [h a (List.mem_cons_self a t), ih fun x hx => h x (List.mem_cons_of_mem a hx)]

/-- C9: for a genuine piece, `score_position` equals 6 times the count of the
piece's cells in the center column (`columns / 2`) plus the claimed
per-window contributions summed over every length-4 horizontal, vertical and
diagonal window. -/
theorem c9_score_position_eq_claimed_formula (b : Board) (piece : Nat)
    (hp : piece = PLAYER_PIECE ∨ piece = AI_PIECE) :
    score_position b piece = claim_score b piece := by
  have hw : ∀ w : List Nat, w.length = 4 →
      evaluate_window w piece = claim_window_score w piece :=
    fun w hl => evaluate_window_eq_claim w piece hl hp
  have hwin : ∀ f : Nat → Nat,
      evaluate_window ((List.range WINDOW_LENGTH).map f) piece
        = claim_window_score ((List.range WINDOW_LENGTH).map f) piece := by
    intro f
    exact hw _ (by simp [WINDOW_LENGTH])
  simp only [score_position, claim_score]
  congr 1
  · congr 1
    · congr 1
      · congr 1
        · exact sum_flatMap_congr fun r _ =>
            List.map_congr_left fun c _ => hwin _
      · exact sum_flatMap_congr fun c _ =>
          List.map_congr_left fun r _ => hwin _
    · exact sum_flatMap_congr fun r _ =>
        List.map_congr_left fun c _ => hwin _
  · exact sum_flatMap_congr fun r _ =>
      List.map_congr_left fun c _ => hwin _

/-- C9, witness: both sides agree on a concrete mid-game board. -/
theorem c9_score_position_eq_claimed_formula_witness :
    score_position cexBoard2 AI_PIECE = claim_score cexBoard2 AI_PIECE :=
  c9_score_position_eq_claimed_formula cexBoard2 AI_PIECE (Or.inr rfl)

/-! ### Claim C3, amended theorem: alpha-beta pruning preserves the value

The classical fail-soft alpha-beta correctness argument (Knuth–Moore),
carried out for the loops of ai_agent.py against the unpruned minimax value
`full_minimax_value` of the same tree. -/

theorem ABRel_refl (f alpha beta : XInt) : ABRel f f alpha beta :=
  ⟨fun _ => le_refl f, fun _ _ => rfl, fun _ => le_refl f⟩

theorem XInt.le_eq_false {a b : XInt} : XInt.le a b = false ↔ ¬a ≤ b := by
  rw [← XInt.le_iff, Bool.not_eq_true]

/-- One unfolding step of the maximizing loop: the updated running value is
`max v g1` and the updated alpha is `max alpha (max v g1)`. -/
theorem ab_max_loop_cons (recur : Board → XInt → XInt → XInt) (b : Board)
    (piece c : Nat) (rest : List Nat) (v : XInt) (bc : Option Nat)
    (alpha beta : XInt) :
    ab_max_loop recur b piece (c :: rest) v bc alpha beta =
      (if XInt.le beta (XInt.max alpha (XInt.max v
          (recur (drop_piece b ((get_next_open_row b c).getD 0) c piece) alpha beta)))
       then (if XInt.lt v (recur (drop_piece b ((get_next_open_row b c).getD 0) c piece)
              alpha beta) then some c else bc,
             XInt.max v (recur (drop_piece b ((get_next_open_row b c).getD 0) c piece)
              alpha beta))
       else ab_max_loop recur b piece rest
         (XInt.max v (recur (drop_piece b ((get_next_open_row b c).getD 0) c piece)
            alpha beta))
         (if XInt.lt v (recur (drop_piece b ((get_next_open_row b c).getD 0) c piece)
            alpha beta) then some c else bc)
         (XInt.max alpha (XInt.max v
            (recur (drop_piece b ((get_next_open_row b c).getD 0) c piece) alpha beta)))
         beta) := by
  cases hlt : XInt.lt v (recur (drop_piece b ((get_next_open_row b c).getD 0) c piece)
      alpha beta) <;>
    simp [ab_max_loop, hlt, XInt.max]

/-- Knuth–Moore invariant for the maximizing loop: provided each recursive
call satisfies the three-way relation for its window, the loop relates its
result to the exact maximum of the seed and the remaining children. -/
theorem ab_max_loop_rel (recur : Board → XInt → XInt → XInt) (fc : Board → XInt)
    (b : Board) (piece : Nat)
    (IH : ∀ b2 a2 β2, a2 < β2 → ABRel (recur b2 a2 β2) (fc b2) a2 β2) :
    ∀ (cs : List Nat) (v : XInt) (bc : Option Nat) (alpha beta : XInt),
      v ≤ alpha → alpha < beta →
      v ≤ (ab_max_loop recur b piece cs v bc alpha beta).2 ∧
      ABRel ((ab_max_loop recur b piece cs v bc alpha beta).2)
        ((cs.map fun col =>
            fc (drop_piece b ((get_next_open_row b col).getD 0) col piece)).foldl
          XInt.max v) alpha beta := by
  intro cs
  induction cs with
  | nil =>
    intro v bc alpha beta hva hab
    simp only [ab_max_loop, List.map_nil, List.foldl_nil]
    exact ⟨le_refl v, ABRel_refl v alpha beta⟩
  | cons c rest ih =>
    intro v bc alpha beta hva hab
    have hrel := IH (drop_piece b ((get_next_open_row b c).getD 0) c piece) alpha beta hab
    set g1 := recur (drop_piece b ((get_next_open_row b c).getD 0) c piece) alpha beta
      with hg1def
    set f1 := fc (drop_piece b ((get_next_open_row b c).getD 0) c piece) with hf1def
    rw [ab_max_loop_cons]
    simp only [List.map_cons, List.foldl_cons, ← hg1def, ← hf1def, XInt.max_eq]
    set M := ((rest.map fun col =>
        fc (drop_piece b ((get_next_open_row b col).getD 0) col piece)).foldl
      XInt.max XInt.ninf) with hMdef
    have hF : ((rest.map fun col =>
        fc (drop_piece b ((get_next_open_row b col).getD 0) col piece)).foldl
          XInt.max (Max.max v f1)) = Max.max (Max.max v f1) M := by
      rw [foldl_max_eq, ← hMdef]
    rw [hF]
    have halpha2 : Max.max alpha (Max.max v g1) = Max.max alpha g1 := by
      rw [← max_assoc, max_eq_left hva]
    rw [halpha2]
    split
    case isTrue hbr =>
      -- pruned: beta ≤ max alpha g1, hence beta ≤ g1 and the child failed high
      have hβα2 : beta ≤ Max.max alpha g1 := XInt.le_iff.mp hbr
      have hβg1 : beta ≤ g1 := by
        rcases le_max_iff.mp hβα2 with h | h
        · exact absurd (lt_of_lt_of_le hab h) (lt_irrefl alpha)
        · exact h
      have hg1f1 : g1 ≤ f1 := hrel.2.2 hβg1
      have hβw : beta ≤ Max.max v g1 := le_trans hβg1 (le_max_right v g1)
      refine ⟨le_max_left v g1, ?_, ?_, ?_⟩
      · intro hwα
        exact absurd (lt_of_lt_of_le hab (le_trans hβw hwα)) (lt_irrefl alpha)
      · intro _ hwβ
        exact absurd hwβ (not_lt.mpr hβw)
      · intro _
        exact le_trans (max_le_max (le_refl v) hg1f1) (le_max_left (Max.max v f1) M)
    case isFalse hbr =>
      -- not pruned: max alpha g1 < beta, continue with the tightened window
      have hα2β : Max.max alpha g1 < beta :=
        not_le.mp fun hle => hbr (XInt.le_iff.mpr hle)
      have hloop := ih (Max.max v g1) (if XInt.lt v g1 then some c else bc)
        (Max.max alpha g1) beta (by rw [← halpha2]; exact le_max_right _ _) hα2β
      obtain ⟨ih0, ihA, ihB, ihC⟩ := hloop
      set g := (ab_max_loop recur b piece rest (Max.max v g1)
        (if XInt.lt v g1 then some c else bc) (Max.max alpha g1) beta).2 with hgdef
      have hF' : ((rest.map fun col =>
          fc (drop_piece b ((get_next_open_row b col).getD 0) col piece)).foldl
            XInt.max (Max.max v g1)) = Max.max (Max.max v g1) M := by
        rw [foldl_max_eq, ← hMdef]
      rw [hF'] at ihA ihB ihC
      have hFassoc : Max.max (Max.max v g1) M = Max.max g1 (Max.max v M) := by
        rw [max_comm v g1, max_assoc]
      have hFassoc2 : Max.max (Max.max v f1) M = Max.max f1 (Max.max v M) := by
        rw [max_comm v f1, max_assoc]
      have hvg : v ≤ g := le_trans (le_max_left v g1) ih0
      rcases le_or_lt g1 alpha with hg1α | hαg1
      · -- the child failed low: its exact value is at most the returned bound
        have hf1g1 : f1 ≤ g1 := hrel.1 hg1α
        have hα2 : Max.max alpha g1 = alpha := max_eq_left hg1α
        rw [hα2] at ihA ihB
        refine ⟨hvg, ?_, ?_, ?_⟩
        · intro hgα
          exact le_trans
            (max_le_max (max_le_max (le_refl v) hf1g1) (le_refl M)) (ihA hgα)
        · intro hαg hgβ
          have hgF' : g = Max.max (Max.max v g1) M := ihB hαg hgβ
          rcases le_total g1 (Max.max v M) with hle | hle
          · rw [hFassoc2, max_eq_right (le_trans hf1g1 hle), ← max_eq_right hle,
              ← hFassoc]
            exact hgF'
          · exfalso
            rw [hgF', hFassoc, max_eq_left hle] at hαg
            exact absurd (lt_of_le_of_lt hg1α hαg) (lt_irrefl g1)
        · intro hβg
          have hgF' : g ≤ Max.max (Max.max v g1) M := ihC hβg
          rcases le_total g1 (Max.max v M) with hle | hle
          · rw [hFassoc, max_eq_right hle] at hgF'
            refine le_trans hgF' ?_
            rw [hFassoc2]
            exact le_max_right f1 (Max.max v M)
          · exfalso
            rw [hFassoc, max_eq_left hle] at hgF'
            have : beta ≤ alpha := le_trans hβg (le_trans hgF' hg1α)
            exact absurd (lt_of_lt_of_le hab this) (lt_irrefl alpha)
      · -- the child's value was inside the window, hence exact
        have hg1β : g1 < beta := lt_of_le_of_lt (le_max_right alpha g1) hα2β
        have hg1f1 : g1 = f1 := hrel.2.1 hαg1 hg1β
        have hFF : Max.max (Max.max v f1) M = Max.max (Max.max v g1) M := by
          rw [hg1f1]
        rw [hFF]
        have hα2 : Max.max alpha g1 = g1 := max_eq_right (le_of_lt hαg1)
        rw [hα2] at ihA ihB
        refine ⟨hvg, ?_, ?_, ?_⟩
        · intro hgα
          have hg1g : g1 ≤ g := le_trans (le_max_right v g1) ih0
          exact absurd (lt_of_lt_of_le hαg1 (le_trans hg1g hgα)) (lt_irrefl alpha)
        · intro hαg hgβ
          rcases le_or_lt g g1 with hgg1 | hg1g
          · have hless : Max.max (Max.max v g1) M ≤ g := ihA hgg1
            have hmore : g ≤ Max.max (Max.max v g1) M :=
              le_trans hgg1 (le_trans (le_max_right v g1) (le_max_left _ M))
            exact le_antisymm hmore hless
          · exact ihB hg1g hgβ
        · intro hβg
          exact ihC hβg

/-- One unfolding step of the minimizing loop: the updated running value is
`min v g1` and the updated beta is `min beta (min v g1)`. -/
theorem ab_min_loop_cons (recur : Board → XInt → XInt → XInt) (b : Board)
    (piece c : Nat) (rest : List Nat) (v : XInt) (bc : Option Nat)
    (alpha beta : XInt) :
    ab_min_loop recur b piece (c :: rest) v bc alpha beta =
      (if XInt.le (XInt.min beta (XInt.min v
          (recur (drop_piece b ((get_next_open_row b c).getD 0) c piece) alpha beta)))
          alpha
       then (if XInt.lt (recur (drop_piece b ((get_next_open_row b c).getD 0) c piece)
              alpha beta) v then some c else bc,
             XInt.min v (recur (drop_piece b ((get_next_open_row b c).getD 0) c piece)
              alpha beta))
       else ab_min_loop recur b piece rest
         (XInt.min v (recur (drop_piece b ((get_next_open_row b c).getD 0) c piece)
            alpha beta))
         (if XInt.lt (recur (drop_piece b ((get_next_open_row b c).getD 0) c piece)
            alpha beta) v then some c else bc)
         alpha
         (XInt.min beta (XInt.min v
            (recur (drop_piece b ((get_next_open_row b c).getD 0) c piece) alpha beta)))) := by
  cases hlt : XInt.lt (recur (drop_piece b ((get_next_open_row b c).getD 0) c piece)
      alpha beta) v <;>
    simp [ab_min_loop, hlt, XInt.min]

/-- Knuth–Moore invariant for the minimizing loop. -/
theorem ab_min_loop_rel (recur : Board → XInt → XInt → XInt) (fc : Board → XInt)
    (b : Board) (piece : Nat)
    (IH : ∀ b2 a2 β2, a2 < β2 → ABRel (recur b2 a2 β2) (fc b2) a2 β2) :
    ∀ (cs : List Nat) (v : XInt) (bc : Option Nat) (alpha beta : XInt),
      beta ≤ v → alpha < beta →
      (ab_min_loop recur b piece cs v bc alpha beta).2 ≤ v ∧
      ABRel ((ab_min_loop recur b piece cs v bc alpha beta).2)
        ((cs.map fun col =>
            fc (drop_piece b ((get_next_open_row b col).getD 0) col piece)).foldl
          XInt.min v) alpha beta := by
  intro cs
  induction cs with
  | nil =>
    intro v bc alpha beta hβv hab
    simp only [ab_min_loop, List.map_nil, List.foldl_nil]
    exact ⟨le_refl v, ABRel_refl v alpha beta⟩
  | cons c rest ih =>
    intro v bc alpha beta hβv hab
    have hrel := IH (drop_piece b ((get_next_open_row b c).getD 0) c piece) alpha beta hab
    set g1 := recur (drop_piece b ((get_next_open_row b c).getD 0) c piece) alpha beta
      with hg1def
    set f1 := fc (drop_piece b ((get_next_open_row b c).getD 0) c piece) with hf1def
    rw [ab_min_loop_cons]
    simp only [List.map_cons, List.foldl_cons, ← hg1def, ← hf1def, XInt.min_eq]
    set M := ((rest.map fun col =>
        fc (drop_piece b ((get_next_open_row b col).getD 0) col piece)).foldl
      XInt.min XInt.pinf) with hMdef
    have hF : ((rest.map fun col =>
        fc (drop_piece b ((get_next_open_row b col).getD 0) col piece)).foldl
          XInt.min (Min.min v f1)) = Min.min (Min.min v f1) M := by
      rw [foldl_min_eq, ← hMdef]
    rw [hF]
    have hbeta2 : Min.min beta (Min.min v g1) = Min.min beta g1 := by
      rw [← min_assoc, min_eq_left hβv]
    rw [hbeta2]
    split
    case isTrue hbr =>
      -- pruned: min beta g1 ≤ alpha, hence g1 ≤ alpha and the child failed low
      have hβ2α : Min.min beta g1 ≤ alpha := XInt.le_iff.mp hbr
      have hg1α : g1 ≤ alpha := by
        rcases min_le_iff.mp hβ2α with h | h
        · exact absurd (lt_of_lt_of_le hab h) (lt_irrefl alpha)
        · exact h
      have hf1g1 : f1 ≤ g1 := hrel.1 hg1α
      have hwα : Min.min v g1 ≤ alpha := le_trans (min_le_right v g1) hg1α
      refine ⟨min_le_left v g1, ?_, ?_, ?_⟩
      · intro _
        exact le_trans (min_le_left (Min.min v f1) M) (min_le_min (le_refl v) hf1g1)
      · intro hαw _
        exact absurd (lt_of_lt_of_le hαw hwα) (lt_irrefl alpha)
      · intro hβw
        exact absurd (lt_of_lt_of_le hab (le_trans hβw hwα)) (lt_irrefl alpha)
    case isFalse hbr =>
      -- not pruned: alpha < min beta g1, continue with the tightened window
      have hαβ2 : alpha < Min.min beta g1 :=
        not_le.mp fun hle => hbr (XInt.le_iff.mpr hle)
      have hloop := ih (Min.min v g1) (if XInt.lt g1 v then some c else bc)
        alpha (Min.min beta g1) (min_le_min hβv (le_refl g1)) hαβ2
      obtain ⟨ih0, ihA, ihB, ihC⟩ := hloop
      set g := (ab_min_loop recur b piece rest (Min.min v g1)
        (if XInt.lt g1 v then some c else bc) alpha (Min.min beta g1)).2 with hgdef
      have hF' : ((rest.map fun col =>
          fc (drop_piece b ((get_next_open_row b col).getD 0) col piece)).foldl
            XInt.min (Min.min v g1)) = Min.min (Min.min v g1) M := by
        rw [foldl_min_eq, ← hMdef]
      rw [hF'] at ihA ihB ihC
      have hFassoc : Min.min (Min.min v g1) M = Min.min g1 (Min.min v M) := by
        rw [min_comm v g1, min_assoc]
      have hFassoc2 : Min.min (Min.min v f1) M = Min.min f1 (Min.min v M) := by
        rw [min_comm v f1, min_assoc]
      have hgv : g ≤ v := le_trans ih0 (min_le_left v g1)
      rcases le_or_lt beta g1 with hβg1 | hg1β
      · -- the child failed high: its exact value is at least the returned bound
        have hg1f1 : g1 ≤ f1 := hrel.2.2 hβg1
        have hβ2 : Min.min beta g1 = beta := min_eq_left hβg1
        rw [hβ2] at ihB ihC
        refine ⟨hgv, ?_, ?_, ?_⟩
        · intro hgα
          have hgF' : Min.min (Min.min v g1) M ≤ _ := ihA hgα
          rcases le_total (Min.min v M) g1 with hle | hle
          · rw [hFassoc, min_eq_right hle] at hgF'
            refine le_trans ?_ hgF'
            rw [hFassoc2]
            exact min_le_right f1 (Min.min v M)
          · exfalso
            rw [hFassoc, min_eq_left hle] at hgF'
            have : beta ≤ alpha := le_trans hβg1 (le_trans hgF' hgα)
            exact absurd (lt_of_lt_of_le hab this) (lt_irrefl alpha)
        · intro hαg hgβ
          have hgF' := ihB hαg hgβ
          rcases le_total (Min.min v M) g1 with hle | hle
          · rw [hFassoc2, min_eq_right (le_trans hle hg1f1), ← min_eq_right hle,
              ← hFassoc]
            exact hgF'
          · exfalso
            rw [hgF', hFassoc, min_eq_left hle] at hgβ
            exact absurd (lt_of_le_of_lt hβg1 hgβ) (lt_irrefl beta)
        · intro hβg
          have hgF' : _ ≤ Min.min (Min.min v g1) M := ihC hβg
          refine le_trans hgF' ?_
          exact le_trans (min_le_min (min_le_min (le_refl v) hg1f1) (le_refl M))
            (le_of_eq rfl)
      · -- the child's value was inside the window, hence exact
        have hαg1 : alpha < g1 := lt_of_lt_of_le hαβ2 (min_le_right beta g1)
        have hg1f1 : g1 = f1 := hrel.2.1 hαg1 hg1β
        have hFF : Min.min (Min.min v f1) M = Min.min (Min.min v g1) M := by
          rw [hg1f1]
        rw [hFF]
        have hβ2 : Min.min beta g1 = g1 := min_eq_right (le_of_lt hg1β)
        rw [hβ2] at ihB ihC
        refine ⟨hgv, ?_, ?_, ?_⟩
        · intro hgα
          exact ihA hgα
        · intro hαg hgβ
          rcases le_or_lt g1 g with hg1g | hgg1
          · have hless : g ≤ Min.min (Min.min v g1) M := ihC hg1g
            have hmore : Min.min (Min.min v g1) M ≤ g :=
              le_trans (min_le_left _ M) (le_trans (min_le_right v g1) hg1g)
            exact le_antisymm hless hmore
          · exact ihB hαg hgg1
        · intro hβg
          exfalso
          have : beta ≤ g1 := le_trans hβg (le_trans ih0 (min_le_right v g1))
          exact absurd (lt_of_le_of_lt this hg1β) (lt_irrefl beta)

/-- The Knuth–Moore relation holds between `ai_agent.minimax` and the
unpruned minimax value of the same tree, for every window `alpha < beta`. -/
theorem minimaxAB_rel (piece : Nat) :
    ∀ (d : Nat) (b : Board) (alpha beta : XInt) (maxi : Bool), alpha < beta →
      ABRel ((minimaxAB b d alpha beta maxi piece).2)
        (full_minimax_value b d maxi piece) alpha beta := by
  intro d
  induction d with
  | zero =>
    intro b alpha beta maxi hab
    have he : (minimaxAB b 0 alpha beta maxi piece).2
        = full_minimax_value b 0 maxi piece := by
      simp only [minimaxAB, full_minimax_value]
      split <;> rfl
    rw [he]
    exact ABRel_refl _ alpha beta
  | succ d ihd =>
    intro b alpha beta maxi hab
    by_cases hterm : ((get_valid_locations b).isEmpty || winning_move b PLAYER_PIECE
        || winning_move b AI_PIECE) = true
    · have he : (minimaxAB b (d + 1) alpha beta maxi piece).2
          = full_minimax_value b (d + 1) maxi piece := by
        simp only [minimaxAB, full_minimax_value, hterm, if_true]
      rw [he]
      exact ABRel_refl _ alpha beta
    · cases maxi with
      | false =>
        have he : minimaxAB b (d + 1) alpha beta false piece
            = ab_min_loop (fun b2 a2 β2 => (minimaxAB b2 d a2 β2 true piece).2) b piece
              (sort_by_center (COLUMN_COUNT b) (get_valid_locations b))
              XInt.pinf none alpha beta := by
          simp only [minimaxAB, hterm, Bool.false_eq_true, if_false, ite_false]
        have hf : full_minimax_value b (d + 1) false piece
            = ((sort_by_center (COLUMN_COUNT b) (get_valid_locations b)).map fun col =>
                full_minimax_value
                  (drop_piece b ((get_next_open_row b col).getD 0) col piece) d true
                  piece).foldl XInt.min XInt.pinf := by
          simp only [full_minimax_value, hterm, Bool.not_false, Bool.false_eq_true,
            if_false, ite_false]
        rw [he, hf]
        exact (ab_min_loop_rel _ _ b piece
          (fun b2 a2 β2 h => ihd b2 a2 β2 true h) _ XInt.pinf none alpha beta
          (XInt.le_pinf beta) hab).2
      | true =>
        have he : minimaxAB b (d + 1) alpha beta true piece
            = ab_max_loop (fun b2 a2 β2 => (minimaxAB b2 d a2 β2 false piece).2) b piece
              (sort_by_center (COLUMN_COUNT b) (get_valid_locations b))
              XInt.ninf none alpha beta := by
          simp only [minimaxAB, hterm, Bool.false_eq_true, if_false, ite_true, ite_false]
        have hf : full_minimax_value b (d + 1) true piece
            = ((sort_by_center (COLUMN_COUNT b) (get_valid_locations b)).map fun col =>
                full_minimax_value
                  (drop_piece b ((get_next_open_row b col).getD 0) col piece) d false
                  piece).foldl XInt.max XInt.ninf := by
          simp only [full_minimax_value, hterm, Bool.not_true, Bool.false_eq_true,
            if_false, ite_true, ite_false]
        rw [he, hf]
        exact (ab_max_loop_rel _ _ b piece
          (fun b2 a2 β2 h => ihd b2 a2 β2 false h) _ XInt.ninf none alpha beta
          (XInt.ninf_le alpha) hab).2

/-- C3, amended: at the root window `(-inf, +inf)` the alpha-beta search of
ai_agent.py returns exactly the value of the unpruned full minimax search
over the same game tree (the tree ai_agent actually searches, in which both
plies drop the maximizing piece): pruning never changes the returned value. -/
theorem c3_alphabeta_value_eq_unpruned_full_minimax (b : Board) (depth : Nat)
    (maxi : Bool) (piece : Nat) :
    (minimaxAB b depth XInt.ninf XInt.pinf maxi piece).2
      = full_minimax_value b depth maxi piece := by
  obtain ⟨hA, hB, hC⟩ := minimaxAB_rel piece depth b XInt.ninf XInt.pinf maxi
    XInt.ninf_lt_pinf
  rcases le_or_lt (minimaxAB b depth XInt.ninf XInt.pinf maxi piece).2 XInt.ninf with
    hlow | hmid
  · exact le_antisymm (le_trans hlow (XInt.ninf_le _)) (hA hlow)
  · rcases le_or_lt XInt.pinf (minimaxAB b depth XInt.ninf XInt.pinf maxi piece).2 with
      hhigh | hmid2
    · exact le_antisymm (hC hhigh) (le_trans (XInt.le_pinf _) hhigh)
    · exact hB hmid hmid2

/-! ### Claim C5: the engine never mutates the caller-owned board

In the heap model the caller's board is a set of row references; the engine
only ever appends freshly cloned rows and writes through references to those
clones, so the final heap extends the initial one and every caller row keeps
its contents. -/

theorem heap_extends_refl (h : Heap) : heap_extends h h :=
  ⟨[], (List.append_nil h).symm⟩

theorem heap_extends_trans {h1 h2 h3 : Heap} (a : heap_extends h1 h2)
    (b : heap_extends h2 h3) : heap_extends h1 h3 := by
  obtain ⟨t1, rfl⟩ := a
  obtain ⟨t2, rfl⟩ := b
  exact ⟨t1 ++ t2, List.append_assoc h1 t1 t2⟩

theorem heap_extends_append (h : Heap) (t : Heap) : heap_extends h (h ++ t) := ⟨t, rfl⟩

/-- Row objects that already existed read the same through any extension. -/
theorem read_row_of_extends {h h2 : Heap} (he : heap_extends h h2) {i : Nat}
    (hi : i < h.length) : read_row h2 i = read_row h i := by
  obtain ⟨t, rfl⟩ := he
  unfold read_row
  rw [List.getD_eq_getElem?_getD, List.getD_eq_getElem?_getD,
    List.getElem?_append_left hi]

/-- A board whose row references all predate the extension reads unchanged. -/
theorem board_of_extends {h h2 : Heap} (he : heap_extends h h2) (br : BoardRef)
    (hbr : ∀ r ∈ br, r < h.length) : board_of h2 br = board_of h br :=
  List.map_congr_left fun r hr => read_row_of_extends he (hbr r hr)

/-- Writing at or beyond the old length preserves the extension. -/
theorem heap_extends_set {h h2 : Heap} (he : heap_extends h h2) {j : Nat}
    (hj : h.length ≤ j) (v : List Nat) : heap_extends h (h2.set j v) := by
  obtain ⟨t, rfl⟩ := he
  exact ⟨t.set (j - h.length) v, by rw [List.set_append_right j v hj]⟩

/-- The row index the source computes is in range whenever the board has
rows: a found row is below `ROW_COUNT`, and the `None` fallback reads `0`. -/
theorem open_row_lt (b2 : Board) (col : Nat) (hb2 : 0 < b2.length) :
    (get_next_open_row b2 col).getD 0 < b2.length := by
  cases hfind : get_next_open_row b2 col with
  | none => simpa using hb2
  | some r =>
    have hmem := List.mem_of_find?_eq_some hfind
    rw [List.mem_reverse, List.mem_range] at hmem
    simpa using hmem

/-- Cloning then dropping writes only into the freshly appended rows. -/
theorem clone_drop_extends (hp : Heap) (br : BoardRef) (row col piece : Nat)
    (hrow : row < br.length) :
    heap_extends hp
      (drop_pieceH (clone_board hp br).1 (clone_board hp br).2 row col piece) := by
  unfold drop_pieceH clone_board
  have href : (List.range' hp.length br.length).getD row 0 = hp.length + row := by
    rw [List.getD_eq_getElem?_getD,
      List.getElem?_eq_getElem (by simpa using hrow)]
    simp
  rw [href]
  exact heap_extends_set (heap_extends_append hp _) (Nat.le_add_right _ _) _

/-- The length of a board handle read through any heap. -/
theorem board_of_length (h : Heap) (br : BoardRef) :
    (board_of h br).length = br.length := List.length_map br _

/-- A non-empty set of legal columns forces the handle to have rows. -/
theorem boardref_pos_of_valid_ne (h : Heap) (br : BoardRef)
    (hv : (get_valid_locations (board_of h br)).isEmpty = false) : 0 < br.length := by
  rcases Nat.eq_zero_or_pos br.length with hz | hpos
  · rw [List.length_eq_zero] at hz
    subst hz
    simp [board_of, get_valid_locations, COLUMN_COUNT] at hv
  · exact hpos

/-- The maximizing heap loop only ever extends the heap. -/
theorem ab_max_loopH_extends
    (recur : Heap → BoardRef → XInt → XInt → Heap × XInt)
    (hrec : ∀ hp2 br2 a2 β2, heap_extends hp2 (recur hp2 br2 a2 β2).1)
    (br : BoardRef) (piece : Nat) (hbr : 0 < br.length) :
    ∀ (cs : List Nat) (hp : Heap) (v : XInt) (bc : Option Nat) (alpha beta : XInt),
      heap_extends hp (ab_max_loopH recur br piece cs hp v bc alpha beta).1 := by
  intro cs
  induction cs with
  | nil =>
    intro hp v bc alpha beta
    exact heap_extends_refl hp
  | cons c rest ih =>
    intro hp v bc alpha beta
    have hrow : (get_next_open_row (board_of hp br) c).getD 0 < br.length := by
      rw [← board_of_length hp br]
      exact open_row_lt _ c (by rw [board_of_length]; exact hbr)
    have he1 := clone_drop_extends hp br
      ((get_next_open_row (board_of hp br) c).getD 0) c piece hrow
    have he2 := hrec (drop_pieceH (clone_board hp br).1 (clone_board hp br).2
      ((get_next_open_row (board_of hp br) c).getD 0) c piece)
      (clone_board hp br).2 alpha beta
    simp only [ab_max_loopH]
    split <;> split <;>
      first
        | exact heap_extends_trans he1 he2
        | exact heap_extends_trans (heap_extends_trans he1 he2) (ih _ _ _ _ _)

/-- The minimizing heap loop only ever extends the heap. -/
theorem ab_min_loopH_extends
    (recur : Heap → BoardRef → XInt → XInt → Heap × XInt)
    (hrec : ∀ hp2 br2 a2 β2, heap_extends hp2 (recur hp2 br2 a2 β2).1)
    (br : BoardRef) (piece : Nat) (hbr : 0 < br.length) :
    ∀ (cs : List Nat) (hp : Heap) (v : XInt) (bc : Option Nat) (alpha beta : XInt),
      heap_extends hp (ab_min_loopH recur br piece cs hp v bc alpha beta).1 := by
  intro cs
  induction cs with
  | nil =>
    intro hp v bc alpha beta
    exact heap_extends_refl hp
  | cons c rest ih =>
    intro hp v bc alpha beta
    have hrow : (get_next_open_row (board_of hp br) c).getD 0 < br.length := by
      rw [← board_of_length hp br]
      exact open_row_lt _ c (by rw [board_of_length]; exact hbr)
    have he1 := clone_drop_extends hp br
      ((get_next_open_row (board_of hp br) c).getD 0) c piece hrow
    have he2 := hrec (drop_pieceH (clone_board hp br).1 (clone_board hp br).2
      ((get_next_open_row (board_of hp br) c).getD 0) c piece)
      (clone_board hp br).2 alpha beta
    simp only [ab_min_loopH]
    split <;> split <;>
      first
        | exact heap_extends_trans he1 he2
        | exact heap_extends_trans (heap_extends_trans he1 he2) (ih _ _ _ _ _)

/-- `minimaxH` only ever extends the heap: every write goes to cloned rows. -/
theorem minimaxH_extends (piece : Nat) :
    ∀ (d : Nat) (h : Heap) (br : BoardRef) (alpha beta : XInt) (maxi : Bool),
      heap_extends h (minimaxH h br d alpha beta maxi piece).1 := by
  intro d
  induction d with
  | zero =>
    intro h br alpha beta maxi
    exact heap_extends_refl h
  | succ d ihd =>
    intro h br alpha beta maxi
    simp only [minimaxH]
    split
    · exact heap_extends_refl h
    case isFalse hterm =>
      have hbr : 0 < br.length := by
        apply boardref_pos_of_valid_ne h br
        cases hv : (get_valid_locations (board_of h br)).isEmpty with
        | false => rfl
        | true => exact absurd (by simp [hv]) hterm
      split
      · exact ab_max_loopH_extends _ (fun hp2 br2 a2 β2 => ihd hp2 br2 a2 β2 false)
          br piece hbr _ h XInt.ninf none alpha beta
      · exact ab_min_loopH_extends _ (fun hp2 br2 a2 β2 => ihd hp2 br2 a2 β2 true)
          br piece hbr _ h XInt.pinf none alpha beta

/-- The fast-win check loop only ever extends the heap. -/
theorem win_check_loopH_extends (br : BoardRef) (p : Nat) (hbr : 0 < br.length) :
    ∀ (cs : List Nat) (hp : Heap),
      heap_extends hp (win_check_loopH br p cs hp).1 := by
  intro cs
  induction cs with
  | nil =>
    intro hp
    exact heap_extends_refl hp
  | cons c rest ih =>
    intro hp
    have hrow : (get_next_open_row (board_of hp br) c).getD 0 < br.length := by
      rw [← board_of_length hp br]
      exact open_row_lt _ c (by rw [board_of_length]; exact hbr)
    have he1 := clone_drop_extends hp br
      ((get_next_open_row (board_of hp br) c).getD 0) c p hrow
    simp only [win_check_loopH]
    split
    · exact he1
    · exact heap_extends_trans he1 (ih _)

/-- `get_best_moveH` only ever extends the heap. -/
theorem get_best_moveH_extends (h : Heap) (br : BoardRef) (depth piece : Nat) :
    heap_extends h (get_best_moveH h br depth piece).1 := by
  by_cases hv : get_valid_locations (board_of h br) = []
  · simp only [get_best_moveH, hv, win_check_loopH]
    exact minimaxH_extends piece depth h br XInt.ninf XInt.pinf true
  · have hbr : 0 < br.length := by
      apply boardref_pos_of_valid_ne h br
      simpa [List.isEmpty_iff] using hv
    simp only [get_best_moveH]
    have hw1 := win_check_loopH_extends br piece hbr
      (get_valid_locations (board_of h br)) h
    split
    · exact hw1
    · have hw2 := win_check_loopH_extends br
        (if piece == AI_PIECE then PLAYER_PIECE else AI_PIECE) hbr
        (get_valid_locations (board_of h br))
        (win_check_loopH br piece (get_valid_locations (board_of h br)) h).1
      split
      · exact heap_extends_trans hw1 hw2
      · exact heap_extends_trans (heap_extends_trans hw1 hw2)
          (minimaxH_extends piece depth _ br XInt.ninf XInt.pinf true)

/-- C5: after a call to `minimax` or to `get_best_move`, every cell of the
caller-owned board reads exactly as before the call — all hypothetical
placements happen on freshly cloned rows. -/
theorem c5_engine_preserves_caller_board (h : Heap) (br : BoardRef) (depth : Nat)
    (alpha beta : XInt) (maxi : Bool) (piece : Nat)
    (hbr : ∀ r ∈ br, r < h.length) :
    board_of (minimaxH h br depth alpha beta maxi piece).1 br = board_of h br ∧
    board_of (get_best_moveH h br depth piece).1 br = board_of h br ∧
    ∀ row col,
      read_cell (minimaxH h br depth alpha beta maxi piece).1 br row col
        = read_cell h br row col ∧
      read_cell (get_best_moveH h br depth piece).1 br row col
        = read_cell h br row col := by
  have h1 := board_of_extends
    (minimaxH_extends piece depth h br alpha beta maxi) br hbr
  have h2 := board_of_extends (get_best_moveH_extends h br depth piece) br hbr
  refine ⟨h1, h2, fun row col => ⟨?_, ?_⟩⟩
  · unfold read_cell
    rw [h1]
  · unfold read_cell
    rw [h2]

/-- C5, witness: on a concrete 2×2 board heap, a depth-2 search leaves the
caller's board untouched. -/
theorem c5_engine_preserves_caller_board_witness :
    board_of (minimaxH [[0,0],[0,0]] [0,1] 2 XInt.ninf XInt.pinf true AI_PIECE).1 [0,1]
      = board_of [[0,0],[0,0]] [0,1] ∧
    board_of (get_best_moveH [[0,0],[0,0]] [0,1] 2 AI_PIECE).1 [0,1]
      = board_of [[0,0],[0,0]] [0,1] :=
  ⟨(c5_engine_preserves_caller_board [[0,0],[0,0]] [0,1] 2 XInt.ninf XInt.pinf true
      AI_PIECE (by decide)).1,
   (c5_engine_preserves_caller_board [[0,0],[0,0]] [0,1] 2 XInt.ninf XInt.pinf true
      AI_PIECE (by decide)).2.1⟩

end ConnectFour
